import Mathlib

/-!
Verification of the PDF regex-extraction pipeline (`src/utils.py`).

The four functions of the source file are shallowly embedded as Lean
functions.  Calls into the external PDF library (`pymupdf`), the regex
engine (`re`) and the archive packer (`zipfile`) are modelled by an
oracle structure `Env`: each external call is a function of its
arguments, returning `none` where the Python call would raise an
exception.  Exception control flow (`try`/`except`) becomes `Option`
matching; the Streamlit UI calls (`st.error`, `st.warning`, progress
bar) are pure side channels with no effect on the returned data and are
dropped.  Opening and closing of PDF document handles is recorded in an
explicit event trace so that resource-lifecycle properties can be
stated.
-/

set_option autoImplicit false

namespace PdfParser

/-- A result of Python's `re.findall`: a plain string when the pattern has
no capture groups, a tuple of group values when it has groups. -/
inductive PyMatch where
  | str : String → PyMatch
  | tup : List String → PyMatch
deriving DecidableEq, Repr

/-- An uploaded document as seen by the code: `uploaded_file.name`,
`uploaded_file.size`, and the bytes produced by `uploaded_file.read()`. -/
structure UploadedFile where
  name : String
  size : Nat
  bytes : List Nat
deriving DecidableEq, Repr

/-- Oracle for the external libraries.

* `openDoc b` models `pymupdf.open(stream=b)` followed by per-page
  `get_textpage().extractText()`: `none` when `open` itself raises,
  otherwise one entry per physical page, `none` for a page whose text
  extraction raises and `some t` for a page whose extracted text is `t`.
  The library is deterministic: the same bytes give the same document.
* `findall pat txt` models `re.findall(pat, txt, re.MULTILINE | re.IGNORECASE)`:
  `none` when the call raises `re.error` (uncompilable pattern).
* `hlBody b pat` models the body of `highlight_matches_in_pdf` after the
  document was opened (the page loop with `finditer`, text search,
  annotation calls, and the final `document.write()`): `none` when any
  of those raises, `some out` with the serialized annotated bytes
  otherwise. -/
structure Env where
  openDoc : List Nat → Option (List (Option String))
  findall : String → String → Option (List PyMatch)
  hlBody : List Nat → String → Option (List Nat)

/-- Document-handle lifecycle events, recorded in traces. -/
inductive Ev where
  | openEv
  | closeEv
deriving DecidableEq, Repr

/-- Python `str.lower`, modelled on the ASCII range: uppercase A–Z map
to a–z, other characters are unchanged. -/
def lowerChar (c : Char) : Char :=
  if 65 ≤ c.toNat ∧ c.toNat ≤ 90 then Char.ofNat (c.toNat + 32) else c

/-- `name.lower()` applied characterwise. -/
def strLower (s : String) : String := String.mk (s.data.map lowerChar)

/-- Python `str.endswith`: true when the final characters of `s` equal
`suffix`. -/
def strEndsWith (s suffix : String) : Bool :=
  decide (s.data.drop (s.data.length - suffix.data.length) = suffix.data)

/-- Index of the last occurrence of `c` in a character list, counting
from position `i` for the head (Python `str.rfind`). -/
def lastIdxFrom (c : Char) : List Char → Nat → Option Nat
  | [], _ => none
  | x :: xs, i =>
    match lastIdxFrom c xs (i + 1) with
    | some j => some j
    | none => if x = c then some i else none

/-- `os.path.splitext` (posix form): split off the extension at the last
dot, unless every character of the base name before that dot is itself a
dot (so `.pdf` has no extension and splits as `(".pdf", "")`). -/
def splitext (p : String) : String × String :=
  let s := p.data
  let start := match lastIdxFrom '/' s 0 with
    | none => 0
    | some sep => sep + 1
  match lastIdxFrom '.' s 0 with
  | none => (p, "")
  | some d =>
    if start ≤ d then
      if ((s.drop start).take (d - start)).any (fun ch => ch != '.') then
        (String.mk (s.take d), String.mk (s.drop d))
      else (p, "")
    else (p, "")

/-- The page loop of `extract_text_from_pdf`: pages are visited in
physical order (`range(page_count)`), a page whose extraction raises
aborts the loop with an exception (`none`), a page with non-empty text
is stored under key `page_num + 1`. -/
def extractLoop : Nat → List (Option String) → Option (List (Nat × String))
  | _, [] => some []
  | _, none :: _ => none
  | i, some t :: rest =>
    match extractLoop (i + 1) rest with
    | none => none
    | some ps => some (if t != "" then (i + 1, t) :: ps else ps)

/-- `extract_text_from_pdf`: open the bytes, extract per-page text,
close on success; any exception is caught and yields the empty mapping
(and, as in the source, skips the `close()` call).  Returns the handle
event trace together with the page mapping. -/
def extract_text_from_pdf (env : Env) (b : List Nat) : List Ev × List (Nat × String) :=
  match env.openDoc b with
  | none => ([], [])
  | some pages =>
    match extractLoop 0 pages with
    | none => ([Ev.openEv], [])
    | some pts => ([Ev.openEv, Ev.closeEv], pts)

/-- `apply_regex_pattern`: `re.findall` with the two flags; `re.error`
is caught and reported, returning the empty match list. -/
def apply_regex_pattern (env : Env) (text pattern : String) : List PyMatch :=
  match env.findall pattern text with
  | some ms => ms
  | none => []

/-- The per-match formatting of `process_pdf_files`: a tuple result
(pattern with groups) becomes `" ".join(str(m) for m in match if m)`,
i.e. the non-empty group values joined by single spaces in group order;
a plain string result is used directly. -/
def matchStr : PyMatch → String
  | PyMatch.str s => s
  | PyMatch.tup gs => String.intercalate " " (gs.filter (fun g => g != ""))

/-- One emitted result row before serialization:
`f"{tag_count}\t{document_name}\t{page_num}\t{match_str}"`. -/
structure MatchRecord where
  index : Nat
  document : String
  page : Nat
  matched : String
deriving DecidableEq, Repr

/-- Serialization of one row, exactly the f-string of the source. -/
def MatchRecord.render (r : MatchRecord) : String :=
  toString r.index ++ "\t" ++ r.document ++ "\t" ++ toString r.page ++ "\t" ++ r.matched

/-- The inner match loop of `process_pdf_files` for one page: one record
per match, `tag_count` incremented per match. -/
def pageRecords (docName : String) (pageNum : Nat) : Nat → List PyMatch → List MatchRecord
  | _, [] => []
  | tag, m :: rest =>
    { index := tag, document := docName, page := pageNum, matched := matchStr m }
      :: pageRecords docName pageNum (tag + 1) rest

/-- The page loop of `process_pdf_files` for one document: pages in the
order of the extracted mapping, `tag_count` carried across pages. -/
def pagesRecords (env : Env) (pattern docName : String) : Nat → List (Nat × String) → List MatchRecord
  | _, [] => []
  | tag, (pageNum, pageText) :: rest =>
    let ms := apply_regex_pattern env pageText pattern
    pageRecords docName pageNum tag ms
      ++ pagesRecords env pattern docName (tag + ms.length) rest

/-- The rows contributed by one uploaded document: skip on a wrong
extension, on an over-size file, and on an empty extracted mapping;
otherwise run the page loop with `tag_count = 1`. -/
def fileRows (env : Env) (pattern : String) (f : UploadedFile) : List MatchRecord :=
  if strEndsWith (strLower f.name) ".pdf" = false then []
  else if f.size > 200 * 1024 * 1024 then []
  else
    let page_texts := (extract_text_from_pdf env f.bytes).2
    if page_texts = [] then []
    else pagesRecords env pattern (splitext f.name).1 1 page_texts

/-- `highlight_matches_in_pdf`: open the original bytes, annotate and
serialize; on any exception return the original bytes unchanged (again
skipping `close()` when the exception hit after the open).  Returns the
handle event trace together with the resulting bytes. -/
def highlight_matches_in_pdf (env : Env) (pdf_bytes : List Nat) (pattern _fname : String) :
    List Ev × List Nat :=
  match env.openDoc pdf_bytes with
  | none => ([], pdf_bytes)
  | some _pages =>
    match env.hlBody pdf_bytes pattern with
    | none => ([Ev.openEv], pdf_bytes)
    | some out => ([Ev.openEv, Ev.closeEv], out)

/-- One iteration of the document loop of `process_pdf_files`: the rows
appended to `results` and the entry stored into `highlighted_pdfs`
(present exactly when `create_highlighted_pdfs and has_matches`). -/
def processFile (env : Env) (pattern : String) (flag : Bool) (f : UploadedFile) :
    List MatchRecord × Option (String × List Nat) :=
  let rows := fileRows env pattern f
  (rows,
    if flag = true ∧ rows ≠ [] then
      some ((splitext f.name).1 ++ "_highlighted.pdf",
        (highlight_matches_in_pdf env f.bytes pattern f.name).2)
    else none)

/-- Python `dict` assignment `d[k] = v` on an insertion-ordered
association list: replace in place when the key exists, append
otherwise. -/
def dictSet (k : String) (v : List Nat) : List (String × List Nat) → List (String × List Nat)
  | [] => [(k, v)]
  | (k', v') :: rest => if k' = k then (k, v) :: rest else (k', v') :: dictSet k v rest

/-- The document loop of `process_pdf_files`, threading the `results`
accumulator and the `highlighted_pdfs` dict. -/
def processLoop (env : Env) (pattern : String) (flag : Bool) :
    List UploadedFile → List MatchRecord → List (String × List Nat) →
      List MatchRecord × List (String × List Nat)
  | [], results, dict => (results, dict)
  | f :: rest, results, dict =>
    let pr := processFile env pattern flag f
    processLoop env pattern flag rest (results ++ pr.1)
      (match pr.2 with
       | none => dict
       | some kv => dictSet kv.1 kv.2 dict)

/-- `process_pdf_files`.  The archive is modelled by its entry list (the
name/bytes pairs handed to `zipfile.writestr` in dict order); `none`
models `zip_bytes = None`.  The table is the header-prefixed
newline-join of the accumulated rows when any exist, else `""`. -/
def process_pdf_files (env : Env) (pattern : String) (flag : Bool)
    (files : List UploadedFile) : String × Option (List (String × List Nat)) :=
  let lp := processLoop env pattern flag files [] []
  let zipBytes : Option (List (String × List Nat)) := if lp.2 = [] then none else some lp.2
  if lp.1 = [] then ("", zipBytes)
  else ("Index\tDocument\tPage\tMatch" ++ "\n"
          ++ String.intercalate "\n" (lp.1.map MatchRecord.render), zipBytes)

/-- All rows accumulated by the document loop. -/
def allRecords (env : Env) (pattern : String) (flag : Bool) (files : List UploadedFile) :
    List MatchRecord :=
  (processLoop env pattern flag files [] []).1

/-- Modelled from the spec: the number of matches the Matcher finds on
the extracted pages of one document that passes name and size
validation (0 for a document that fails validation). -/
def specFileCount (env : Env) (pattern : String) (f : UploadedFile) : Nat :=
  if strEndsWith (strLower f.name) ".pdf" = true ∧ f.size ≤ 200 * 1024 * 1024 then
    (((extract_text_from_pdf env f.bytes).2).map
      (fun pt => (apply_regex_pattern env pt.2 pattern).length)).sum
  else 0

/-- Modelled from the spec: "row count = number of matches found across
all valid documents". -/
def specMatchCount (env : Env) (pattern : String) (files : List UploadedFile) : Nat :=
  (files.map (specFileCount env pattern)).sum

/-- One `dict` update step of the document loop, as performed at the end
of each iteration of `process_pdf_files`. -/
def dictStep (env : Env) (pattern : String) (flag : Bool)
    (d : List (String × List Nat)) (f : UploadedFile) : List (String × List Nat) :=
  match (processFile env pattern flag f).2 with
  | none => d
  | some kv => dictSet kv.1 kv.2 d

/-! ### Concrete instances used to exercise the model -/

/-- An oracle where every external call fails. -/
def envTrivial : Env :=
  { openDoc := fun _ => none, findall := fun _ _ => none, hlBody := fun _ _ => none }

/-- An upload whose name does not end in `.pdf`. -/
def fileTxt : UploadedFile := { name := "notes.txt", size := 1, bytes := [] }

/-- An oracle whose regex engine rejects every pattern
(`re.error` on each `findall`), over a readable one-page document. -/
def envBadPat : Env :=
  { openDoc := fun _ => some [some "hello"], findall := fun _ _ => none,
    hlBody := fun _ _ => none }

/-- A small well-formed PDF upload. -/
def filePdfA : UploadedFile := { name := "a.pdf", size := 5, bytes := [1] }

/-- An oracle with one matching page whose highlighting body raises. -/
def envHlFail : Env :=
  { openDoc := fun _ => some [some "hit"],
    findall := fun _ t => if t = "hit" then some [PyMatch.str "hit"] else some [],
    hlBody := fun _ _ => none }

/-- A second small PDF upload with recognisable bytes. -/
def filePdfB : UploadedFile := { name := "b.pdf", size := 4, bytes := [7, 8] }

/-- An oracle where every document has one matching page and
highlighting succeeds, appending a marker byte. -/
def envDup : Env :=
  { openDoc := fun _ => some [some "x"],
    findall := fun _ _ => some [PyMatch.str "x"],
    hlBody := fun b _ => some (b ++ [0]) }

/-- Two distinct uploads that share the same file name. -/
def fileDup1 : UploadedFile := { name := "a.pdf", size := 1, bytes := [1] }

/-- See `fileDup1`: same name, different content. -/
def fileDup2 : UploadedFile := { name := "a.pdf", size := 1, bytes := [2] }

/-- An oracle where the document opens but the second page's text
extraction raises, and the highlighting body raises. -/
def envLeak : Env :=
  { openDoc := fun _ => some [some "x", none],
    findall := fun _ _ => some [],
    hlBody := fun _ _ => none }

/-! ### Lemmas about the per-page and per-document loops -/

theorem pageRecords_length (docName : String) (pageNum : Nat) (tag : Nat) (ms : List PyMatch) :
    (pageRecords docName pageNum tag ms).length = ms.length := by
  induction ms generalizing tag with
  | nil => rfl
  | cons m rest ih => simp [pageRecords, ih]

theorem pageRecords_map_index (docName : String) (pageNum : Nat) (tag : Nat)
    (ms : List PyMatch) :
    (pageRecords docName pageNum tag ms).map MatchRecord.index = List.range' tag ms.length := by
  induction ms generalizing tag with
  | nil => rfl
  | cons m rest ih => simp [pageRecords, List.range', ih]

theorem pageRecords_page (docName : String) (pageNum : Nat) (tag : Nat) (ms : List PyMatch) :
    ∀ r ∈ pageRecords docName pageNum tag ms, r.page = pageNum := by
  induction ms generalizing tag with
  | nil => intro r hr; simp [pageRecords] at hr
  | cons m rest ih =>
    intro r hr
    simp only [pageRecords, List.mem_cons] at hr
    rcases hr with h | h
    · simp [h]
    · exact ih (tag + 1) r h

theorem pageRecords_map_matched (docName : String) (pageNum : Nat) (tag : Nat)
    (ms : List PyMatch) :
    (pageRecords docName pageNum tag ms).map MatchRecord.matched = ms.map matchStr := by
  induction ms generalizing tag with
  | nil => rfl
  | cons m rest ih => simp [pageRecords, ih]

theorem range1_append (s a b : Nat) :
    List.range' s a ++ List.range' (s + a) b = List.range' s (a + b) := by
  induction a generalizing s with
  | zero => simp [List.range']
  | succ a ih =>
    have h : s + (a + 1) = (s + 1) + a := by omega
    have h2 : a + 1 + b = (a + b) + 1 := by omega
    simp only [List.range', List.cons_append, h, h2]
    rw [ih (s + 1)]

theorem pagesRecords_length (env : Env) (pattern docName : String) (tag : Nat)
    (pts : List (Nat × String)) :
    (pagesRecords env pattern docName tag pts).length
      = (pts.map (fun pt => (apply_regex_pattern env pt.2 pattern).length)).sum := by
  induction pts generalizing tag with
  | nil => rfl
  | cons pt rest ih =>
    simp [pagesRecords, pageRecords_length, ih]

theorem pagesRecords_map_index (env : Env) (pattern docName : String) (tag : Nat)
    (pts : List (Nat × String)) :
    (pagesRecords env pattern docName tag pts).map MatchRecord.index
      = List.range' tag (pagesRecords env pattern docName tag pts).length := by
  induction pts generalizing tag with
  | nil => rfl
  | cons pt rest ih =>
    simp only [pagesRecords, List.map_append, List.length_append,
      pageRecords_map_index, pageRecords_length, ih]
    exact range1_append tag _ _

theorem pagesRecords_map_matched (env : Env) (pattern docName : String) (tag : Nat)
    (pts : List (Nat × String)) :
    (pagesRecords env pattern docName tag pts).map MatchRecord.matched
      = ((pts.map (fun pt => apply_regex_pattern env pt.2 pattern)).flatten).map matchStr := by
  induction pts generalizing tag with
  | nil => rfl
  | cons pt rest ih =>
    simp [pagesRecords, pageRecords_map_matched, ih]

theorem pagesRecords_page_mem (env : Env) (pattern docName : String) (tag : Nat)
    (pts : List (Nat × String)) :
    ∀ r ∈ pagesRecords env pattern docName tag pts, ∃ pt ∈ pts, r.page = pt.1 := by
  induction pts generalizing tag with
  | nil => intro r hr; simp [pagesRecords] at hr
  | cons pt rest ih =>
    intro r hr
    simp only [pagesRecords, List.mem_append] at hr
    rcases hr with h | h
    · exact ⟨pt, List.mem_cons_self _ _, pageRecords_page _ _ _ _ r h⟩
    · obtain ⟨pt', hpt', hpage⟩ := ih _ r h
      exact ⟨pt', List.mem_cons_of_mem _ hpt', hpage⟩

theorem extractLoop_keys (pages : List (Option String)) :
    ∀ i pts, extractLoop i pages = some pts →
      (∀ x ∈ pts, i < x.1) ∧ (pts.map Prod.fst).Pairwise (· < ·) := by
  induction pages with
  | nil =>
    intro i pts h
    simp only [extractLoop, Option.some.injEq] at h
    subst h
    simp
  | cons o rest ih =>
    intro i pts h
    cases o with
    | none => simp [extractLoop] at h
    | some t =>
      simp only [extractLoop] at h
      cases hrec : extractLoop (i + 1) rest with
      | none => rw [hrec] at h; simp at h
      | some ps =>
        rw [hrec] at h
        simp only [Option.some.injEq] at h
        obtain ⟨hmem, hpair⟩ := ih (i + 1) ps hrec
        by_cases ht : (t != "") = true
        · simp only [ht, if_true] at h
          subst h
          constructor
          · intro x hx
            rcases List.mem_cons.mp hx with h | h
            · subst h; omega
            · have := hmem x h; omega
          · simp only [List.map_cons, List.pairwise_cons]
            refine ⟨?_, hpair⟩
            intro b hb
            obtain ⟨x, hx, hxb⟩ := List.mem_map.mp hb
            subst hxb
            exact hmem x hx
        · simp only [ht, if_false] at h
          subst h
          exact ⟨fun x hx => by have := hmem x hx; omega, hpair⟩

theorem extract_pages_ascending (env : Env) (b : List Nat) :
    (((extract_text_from_pdf env b).2).map Prod.fst).Pairwise (· < ·) := by
  cases h : env.openDoc b with
  | none => simp [extract_text_from_pdf, h]
  | some pages =>
    cases hrec : extractLoop 0 pages with
    | none => simp [extract_text_from_pdf, h, hrec]
    | some pts =>
      have heq : (extract_text_from_pdf env b).2 = pts := by
        simp [extract_text_from_pdf, h, hrec]
      rw [heq]
      simpa using (extractLoop_keys pages 0 pts hrec).2

theorem pagesRecords_pages_mono (env : Env) (pattern docName : String) (tag : Nat)
    (pts : List (Nat × String)) (h : (pts.map Prod.fst).Pairwise (· < ·)) :
    ((pagesRecords env pattern docName tag pts).map MatchRecord.page).Pairwise (· ≤ ·) := by
  induction pts generalizing tag with
  | nil => simp [pagesRecords]
  | cons pt rest ih =>
    simp only [List.map_cons, List.pairwise_cons] at h
    obtain ⟨hhead, htail⟩ := h
    simp only [pagesRecords, List.map_append, List.pairwise_append]
    refine ⟨?_, ih _ htail, ?_⟩
    · -- within one page all page numbers are equal
      have hall := pageRecords_page docName pt.1 tag (apply_regex_pattern env pt.2 pattern)
      have : ∀ p ∈ (pageRecords docName pt.1 tag
          (apply_regex_pattern env pt.2 pattern)).map MatchRecord.page, p = pt.1 := by
        intro p hp
        obtain ⟨r, hr, hrp⟩ := List.mem_map.mp hp
        subst hrp
        exact hall r hr
      exact List.pairwise_of_forall_mem_list (fun a ha b hb => by
        rw [this a ha, this b hb])
    · intro a ha b hb
      obtain ⟨r, hr, hra⟩ := List.mem_map.mp ha
      obtain ⟨r', hr', hrb⟩ := List.mem_map.mp hb
      subst hra hrb
      rw [pageRecords_page _ _ _ _ r hr]
      obtain ⟨pt', hpt', hpage⟩ := pagesRecords_page_mem env pattern docName _ rest r' hr'
      rw [hpage]
      have : pt'.1 ∈ rest.map Prod.fst := List.mem_map.mpr ⟨pt', hpt', rfl⟩
      exact Nat.le_of_lt (hhead _ this)

theorem processFile_fst (env : Env) (pattern : String) (flag : Bool) (f : UploadedFile) :
    (processFile env pattern flag f).1 = fileRows env pattern f := by
  simp [processFile]

theorem processFile_snd_of_nil (env : Env) (pattern : String) (flag : Bool) (f : UploadedFile)
    (h : fileRows env pattern f = []) : (processFile env pattern flag f).2 = none := by
  simp [processFile, h]

theorem processLoop_spec (env : Env) (pattern : String) (flag : Bool) :
    ∀ (files : List UploadedFile) (res : List MatchRecord) (dict : List (String × List Nat)),
    processLoop env pattern flag files res dict
      = (res ++ ((files.map (fileRows env pattern)).flatten),
         files.foldl (dictStep env pattern flag) dict) := by
  intro files
  induction files with
  | nil => intro res dict; simp [processLoop]
  | cons f rest ih =>
    intro res dict
    simp only [processLoop, ih, List.map_cons, List.flatten_cons, List.foldl_cons]
    refine congrArg₂ Prod.mk ?_ ?_
    · rw [processFile_fst, List.append_assoc]
    · rfl

theorem allRecords_eq (env : Env) (pattern : String) (flag : Bool) (files : List UploadedFile) :
    allRecords env pattern flag files = (files.map (fileRows env pattern)).flatten := by
  simp [allRecords, processLoop_spec]

theorem dictSet_ne_nil (k : String) (v : List Nat) (d : List (String × List Nat)) :
    dictSet k v d ≠ [] := by
  cases d with
  | nil => simp [dictSet]
  | cons kv rest =>
    obtain ⟨k', v'⟩ := kv
    simp only [dictSet]
    split <;> simp

theorem dictSet_keys (k : String) (v : List Nat) (d : List (String × List Nat)) :
    (dictSet k v d).map Prod.fst
      = if k ∈ d.map Prod.fst then d.map Prod.fst else d.map Prod.fst ++ [k] := by
  induction d with
  | nil => simp [dictSet]
  | cons kv rest ih =>
    obtain ⟨k', v'⟩ := kv
    by_cases h : k' = k
    · subst h
      simp [dictSet]
    · have h' : ¬ k = k' := fun he => h he.symm
      simp only [dictSet, if_neg h, List.map_cons, List.mem_cons, h', false_or, ih]
      by_cases hm : k ∈ rest.map Prod.fst
      · simp [hm]
      · simp [hm]

theorem dictSet_keys_mem (k : String) (v : List Nat) (d : List (String × List Nat))
    (k' : String) :
    k' ∈ (dictSet k v d).map Prod.fst ↔ k' = k ∨ k' ∈ d.map Prod.fst := by
  rw [dictSet_keys]
  by_cases hm : k ∈ d.map Prod.fst
  · simp only [if_pos hm]
    constructor
    · exact Or.inr
    · rintro (rfl | h)
      · exact hm
      · exact h
  · simp only [if_neg hm, List.mem_append, List.mem_singleton]
    tauto

theorem dictSet_keys_nodup (k : String) (v : List Nat) (d : List (String × List Nat))
    (h : (d.map Prod.fst).Nodup) : ((dictSet k v d).map Prod.fst).Nodup := by
  rw [dictSet_keys]
  by_cases hm : k ∈ d.map Prod.fst
  · simpa [hm] using h
  · simp only [if_neg hm]
    rw [List.nodup_append]
    refine ⟨h, List.nodup_singleton k, ?_⟩
    intro a ha hb
    rw [List.mem_singleton] at hb
    subst hb
    exact hm ha

theorem foldl_dictStep_ne_nil (env : Env) (pattern : String) (flag : Bool) :
    ∀ (files : List UploadedFile) (d : List (String × List Nat)), d ≠ [] →
      files.foldl (dictStep env pattern flag) d ≠ [] := by
  intro files
  induction files with
  | nil => intro d h; simpa using h
  | cons f rest ih =>
    intro d h
    rw [List.foldl_cons]
    apply ih
    cases h2 : (processFile env pattern flag f).2 with
    | none => simpa [dictStep, h2] using h
    | some kv => simp [dictStep, h2, dictSet_ne_nil]

theorem foldl_dictStep_eq_nil (env : Env) (pattern : String) (flag : Bool) :
    ∀ (files : List UploadedFile) (d : List (String × List Nat)),
      files.foldl (dictStep env pattern flag) d = [] →
      d = [] ∧ ∀ f ∈ files, (processFile env pattern flag f).2 = none := by
  intro files
  induction files with
  | nil => intro d h; simpa using h
  | cons f rest ih =>
    intro d h
    rw [List.foldl_cons] at h
    obtain ⟨hstep, hrest⟩ := ih _ h
    cases h2 : (processFile env pattern flag f).2 with
    | none =>
      simp only [dictStep, h2] at hstep
      refine ⟨hstep, ?_⟩
      intro g hg
      rcases List.mem_cons.mp hg with rfl | hg'
      · exact h2
      · exact hrest g hg'
    | some kv =>
      exfalso
      simp only [dictStep, h2] at hstep
      exact dictSet_ne_nil kv.1 kv.2 _ hstep

theorem foldl_dictStep_keys_mem (env : Env) (pattern : String) (flag : Bool) (k : String) :
    ∀ (files : List UploadedFile) (d : List (String × List Nat)),
      k ∈ (files.foldl (dictStep env pattern flag) d).map Prod.fst ↔
        (k ∈ d.map Prod.fst ∨
          ∃ f ∈ files, ∃ v, (processFile env pattern flag f).2 = some (k, v)) := by
  intro files
  induction files with
  | nil => intro d; simp
  | cons f rest ih =>
    intro d
    rw [List.foldl_cons, ih]
    cases h2 : (processFile env pattern flag f).2 with
    | none =>
      simp only [dictStep, h2]
      constructor
      · rintro (h | ⟨g, hg, v, hv⟩)
        · exact Or.inl h
        · exact Or.inr ⟨g, List.mem_cons_of_mem _ hg, v, hv⟩
      · rintro (h | ⟨g, hg, v, hv⟩)
        · exact Or.inl h
        · rcases List.mem_cons.mp hg with rfl | hg'
          · rw [h2] at hv; cases hv
          · exact Or.inr ⟨g, hg', v, hv⟩
    | some kv =>
      obtain ⟨k0, v0⟩ := kv
      simp only [dictStep, h2]
      rw [dictSet_keys_mem]
      constructor
      · rintro ((rfl | h) | ⟨g, hg, v, hv⟩)
        · exact Or.inr ⟨f, List.mem_cons_self f rest, v0, h2⟩
        · exact Or.inl h
        · exact Or.inr ⟨g, List.mem_cons_of_mem _ hg, v, hv⟩
      · rintro (h | ⟨g, hg, v, hv⟩)
        · exact Or.inl (Or.inr h)
        · rcases List.mem_cons.mp hg with rfl | hg'
          · rw [h2] at hv
            simp only [Option.some.injEq, Prod.mk.injEq] at hv
            exact Or.inl (Or.inl hv.1.symm)
          · exact Or.inr ⟨g, hg', v, hv⟩

theorem foldl_dictStep_nodup (env : Env) (pattern : String) (flag : Bool) :
    ∀ (files : List UploadedFile) (d : List (String × List Nat)),
      (d.map Prod.fst).Nodup →
      ((files.foldl (dictStep env pattern flag) d).map Prod.fst).Nodup := by
  intro files
  induction files with
  | nil => intro d h; simpa using h
  | cons f rest ih =>
    intro d h
    rw [List.foldl_cons]
    apply ih
    cases h2 : (processFile env pattern flag f).2 with
    | none => simpa [dictStep, h2] using h
    | some kv => simp only [dictStep, h2]; exact dictSet_keys_nodup kv.1 kv.2 _ h

theorem fileRows_map_index (env : Env) (pattern : String) (f : UploadedFile) :
    (fileRows env pattern f).map MatchRecord.index
      = List.range' 1 (fileRows env pattern f).length := by
  simp only [fileRows]
  split
  · simp [List.range']
  · split
    · simp [List.range']
    · split
      · simp [List.range']
      · exact pagesRecords_map_index env pattern _ 1 _

theorem fileRows_pages_mono (env : Env) (pattern : String) (f : UploadedFile) :
    ((fileRows env pattern f).map MatchRecord.page).Pairwise (· ≤ ·) := by
  simp only [fileRows]
  split
  · simp
  · split
    · simp
    · split
      · simp
      · exact pagesRecords_pages_mono env pattern _ 1 _
          (extract_pages_ascending env f.bytes)

theorem fileRows_length (env : Env) (pattern : String) (f : UploadedFile) :
    (fileRows env pattern f).length = specFileCount env pattern f := by
  unfold fileRows specFileCount
  cases hA : strEndsWith (strLower f.name) ".pdf" with
  | false => simp [hA]
  | true =>
    by_cases hS : f.size > 200 * 1024 * 1024
    · have hS' : ¬ f.size ≤ 200 * 1024 * 1024 := by omega
      simp [hA, hS, hS']
    · have hS' : f.size ≤ 200 * 1024 * 1024 := by omega
      by_cases hE : (extract_text_from_pdf env f.bytes).2 = []
      · simp [hA, hS, hS', hE]
      · simp [hA, hS, hS', hE, pagesRecords_length]

theorem allRecords_length (env : Env) (pattern : String) (flag : Bool)
    (files : List UploadedFile) :
    (allRecords env pattern flag files).length = specMatchCount env pattern files := by
  rw [allRecords_eq]
  induction files with
  | nil => rfl
  | cons f rest ih =>
    simp only [List.map_cons, List.flatten_cons, List.length_append, ih,
      specMatchCount, List.sum_cons, fileRows_length]

theorem pagesRecords_nil (env : Env) (pattern docName : String) (tag : Nat)
    (pts : List (Nat × String)) (h : ∀ t, env.findall pattern t = none) :
    pagesRecords env pattern docName tag pts = [] := by
  induction pts generalizing tag with
  | nil => rfl
  | cons pt rest ih =>
    simp [pagesRecords, apply_regex_pattern, h, pageRecords, ih]

theorem fileRows_nil_of_bad_pattern (env : Env) (pattern : String) (f : UploadedFile)
    (h : ∀ t, env.findall pattern t = none) : fileRows env pattern f = [] := by
  simp only [fileRows]
  split
  · rfl
  · split
    · rfl
    · split
      · rfl
      · exact pagesRecords_nil env pattern _ 1 _ h

theorem process_table_eq (env : Env) (pattern : String) (flag : Bool)
    (files : List UploadedFile) :
    (process_pdf_files env pattern flag files).1
      = if allRecords env pattern flag files = [] then ""
        else "Index\tDocument\tPage\tMatch" ++ "\n"
          ++ String.intercalate "\n"
              ((allRecords env pattern flag files).map MatchRecord.render) := by
  simp only [process_pdf_files, allRecords]
  split <;> simp_all

theorem process_zip_eq (env : Env) (pattern : String) (flag : Bool)
    (files : List UploadedFile) :
    (process_pdf_files env pattern flag files).2
      = if files.foldl (dictStep env pattern flag) [] = [] then none
        else some (files.foldl (dictStep env pattern flag) []) := by
  simp only [process_pdf_files, processLoop_spec]
  split <;> simp_all

theorem foldl_dictStep_of_none (env : Env) (pattern : String) (flag : Bool) :
    ∀ (files : List UploadedFile) (d : List (String × List Nat)),
      (∀ f ∈ files, (processFile env pattern flag f).2 = none) →
      files.foldl (dictStep env pattern flag) d = d := by
  intro files
  induction files with
  | nil => intro d _; rfl
  | cons f rest ih =>
    intro d h
    rw [List.foldl_cons]
    have hf := h f (List.mem_cons_self f rest)
    have hstep : dictStep env pattern flag d f = d := by simp [dictStep, hf]
    rw [hstep]
    exact ih d (fun g hg => h g (List.mem_cons_of_mem _ hg))

theorem processFile_snd_false (env : Env) (pattern : String) (f : UploadedFile) :
    (processFile env pattern false f).2 = none := by
  simp [processFile]

theorem processFile_snd_some (env : Env) (pattern : String) (f : UploadedFile)
    (h : fileRows env pattern f ≠ []) :
    (processFile env pattern true f).2
      = some ((splitext f.name).1 ++ "_highlighted.pdf",
          (highlight_matches_in_pdf env f.bytes pattern f.name).2) := by
  simp [processFile, h]

/-! ### The claims -/

/-- Claim C1: within each document the emitted rows carry sequence
indices 1, 2, …, n in order, continuing across page boundaries; the
extracted pages are visited in ascending page-number order, so row page
numbers are monotone; and the batch result is the per-document row
lists concatenated in document order, so the index resets to 1 at each
new document and never at a page boundary. -/
theorem claim_C1_sequence_indices (env : Env) (pattern : String) (flag : Bool)
    (files : List UploadedFile) :
    allRecords env pattern flag files = (files.map (fileRows env pattern)).flatten ∧
    (∀ f : UploadedFile, (fileRows env pattern f).map MatchRecord.index
        = List.range' 1 (fileRows env pattern f).length) ∧
    (∀ b : List Nat, (((extract_text_from_pdf env b).2).map Prod.fst).Pairwise (· < ·)) ∧
    (∀ f : UploadedFile,
        ((fileRows env pattern f).map MatchRecord.page).Pairwise (· ≤ ·)) :=
  ⟨allRecords_eq env pattern flag files,
   fun f => fileRows_map_index env pattern f,
   fun b => extract_pages_ascending env b,
   fun f => fileRows_pages_mono env pattern f⟩

/-- Claim C2: with at least one match the returned table is the fixed
4-column header `Index\tDocument\tPage\tMatch` followed by one
tab-separated row per match, newline-joined in encounter order; with
zero matches it is the empty string with no header; the number of rows
equals the number of matches found across all valid documents. -/
theorem claim_C2_table_format (env : Env) (pattern : String) (flag : Bool)
    (files : List UploadedFile) :
    ((process_pdf_files env pattern flag files).1
      = if allRecords env pattern flag files = [] then ""
        else "Index\tDocument\tPage\tMatch" ++ "\n"
          ++ String.intercalate "\n"
              ((allRecords env pattern flag files).map MatchRecord.render)) ∧
    (allRecords env pattern flag files).length = specMatchCount env pattern files ∧
    (∀ r : MatchRecord, r.render
        = toString r.index ++ "\t" ++ r.document ++ "\t" ++ toString r.page
            ++ "\t" ++ r.matched) :=
  ⟨process_table_eq env pattern flag files,
   allRecords_length env pattern flag files,
   fun _ => rfl⟩

/-- Claim C3: an upload whose lowercased name does not end in `.pdf`,
or whose size exceeds the 200 MiB ceiling, is skipped: it contributes
no rows and no archive entry, and the batch result equals the result of
processing the remaining documents alone. -/
theorem claim_C3_validation_skip (env : Env) (pattern : String) (flag : Bool)
    (f : UploadedFile) (files : List UploadedFile)
    (h : ¬ (strEndsWith (strLower f.name) ".pdf" = true)
          ∨ f.size > 200 * 1024 * 1024) :
    fileRows env pattern f = [] ∧
    (processFile env pattern flag f).2 = none ∧
    process_pdf_files env pattern flag (f :: files)
      = process_pdf_files env pattern flag files := by
  have hrows : fileRows env pattern f = [] := by
    rcases h with h | h
    · have hfalse : strEndsWith (strLower f.name) ".pdf" = false := by
        cases hb : strEndsWith (strLower f.name) ".pdf"
        · rfl
        · exact absurd hb h
      simp [fileRows, hfalse]
    · by_cases hA : strEndsWith (strLower f.name) ".pdf" = false
      · simp [fileRows, hA]
      · simp [fileRows, hA, h]
  have hnone := processFile_snd_of_nil env pattern flag f hrows
  refine ⟨hrows, hnone, ?_⟩
  simp only [process_pdf_files, processLoop_spec, List.map_cons, List.flatten_cons,
    hrows, List.nil_append, List.foldl_cons]
  have hstep : dictStep env pattern flag [] f = [] := by simp [dictStep, hnone]
  rw [hstep]

/-- Witness for Claim C3: a text upload is skipped and leaves the batch
output unchanged. -/
theorem claim_C3_validation_skip_witness :
    ¬ (strEndsWith (strLower fileTxt.name) ".pdf" = true) ∧
    fileRows envTrivial "p" fileTxt = [] ∧
    process_pdf_files envTrivial "p" true [fileTxt]
      = process_pdf_files envTrivial "p" true [] := by
  have h : ¬ (strEndsWith (strLower fileTxt.name) ".pdf" = true) := by decide
  have hc := claim_C3_validation_skip envTrivial "p" true fileTxt [] (Or.inl h)
  exact ⟨h, hc.1, hc.2.2⟩

/-- Claim C4: a tuple match (pattern with capture groups) is flattened
into a single display string by joining its non-empty group values with
one space, in group order; a plain string match is used directly; and
the `Match` field of the emitted rows is exactly this flattening of the
matches in scan order. -/
theorem claim_C4_group_flattening (env : Env) (pattern docName : String) (tag : Nat)
    (pts : List (Nat × String)) (gs : List String) (s : String) :
    matchStr (PyMatch.tup gs) = String.intercalate " " (gs.filter (fun g => g != "")) ∧
    matchStr (PyMatch.str s) = s ∧
    (pagesRecords env pattern docName tag pts).map MatchRecord.matched
      = ((pts.map (fun pt => apply_regex_pattern env pt.2 pattern)).flatten).map matchStr :=
  ⟨rfl, rfl, pagesRecords_map_matched env pattern docName tag pts⟩

/-- Claim C5: when the pattern does not compile (every `findall` call
raises `re.error`), every per-page match attempt returns no matches and
the batch returns the empty result table; nothing escapes the batch
boundary. -/
theorem claim_C5_bad_pattern (env : Env) (pattern : String) (flag : Bool)
    (files : List UploadedFile) (h : ∀ t, env.findall pattern t = none) :
    (∀ t, apply_regex_pattern env t pattern = []) ∧
    (process_pdf_files env pattern flag files).1 = "" := by
  refine ⟨fun t => by simp [apply_regex_pattern, h t], ?_⟩
  have hrec : allRecords env pattern flag files = [] := by
    rw [allRecords_eq]
    induction files with
    | nil => rfl
    | cons f rest ih =>
      simp [fileRows_nil_of_bad_pattern env pattern f h, ih]
  rw [process_table_eq, if_pos hrec]

/-- Witness for Claim C5: a failing pattern on a readable document. -/
theorem claim_C5_bad_pattern_witness :
    envBadPat.findall "(" "hello" = none ∧
    (process_pdf_files envBadPat "(" true [filePdfA]).1 = "" :=
  ⟨rfl, (claim_C5_bad_pattern envBadPat "(" true [filePdfA] (fun _ => rfl)).2⟩

/-- Claim C6: if the highlighting step fails (the open itself or the
annotate/serialize body raises), `highlight_matches_in_pdf` returns the
original unmodified input bytes, and hence that document's archive
entry, if any, holds exactly its original bytes. -/
theorem claim_C6_highlight_fallback (env : Env) (pattern : String) (flag : Bool)
    (f : UploadedFile)
    (h : env.openDoc f.bytes = none ∨ env.hlBody f.bytes pattern = none) :
    (highlight_matches_in_pdf env f.bytes pattern f.name).2 = f.bytes ∧
    (∀ e ∈ (processFile env pattern flag f).2, e.2 = f.bytes) := by
  have hh : (highlight_matches_in_pdf env f.bytes pattern f.name).2 = f.bytes := by
    rcases h with h | h
    · simp [highlight_matches_in_pdf, h]
    · cases ho : env.openDoc f.bytes with
      | none => simp [highlight_matches_in_pdf, ho]
      | some pages => simp [highlight_matches_in_pdf, ho, h]
  refine ⟨hh, ?_⟩
  intro e he
  by_cases hc : flag = true ∧ fileRows env pattern f ≠ []
  · simp only [processFile, if_pos hc, Option.mem_def, Option.some.injEq] at he
    rw [← he]
    exact hh
  · simp [processFile, if_neg hc] at he

/-- Witness for Claim C6: a failing highlighter body leaves the archive
entry equal to the original bytes. -/
theorem claim_C6_highlight_fallback_witness :
    envHlFail.hlBody filePdfB.bytes "hit" = none ∧
    (highlight_matches_in_pdf envHlFail filePdfB.bytes "hit" filePdfB.name).2
      = filePdfB.bytes ∧
    (process_pdf_files envHlFail "hit" true [filePdfB]).2
      = some [("b_highlighted.pdf", [7, 8])] := by
  refine ⟨rfl,
    (claim_C6_highlight_fallback envHlFail "hit" true filePdfB (Or.inr rfl)).1, ?_⟩
  decide

/-- Counterexample to Claim C7: two distinct matching documents that
share the derived name `a` produce a single archive entry, not one
entry per matching document — the later document's bytes overwrite the
earlier entry under the shared key. -/
theorem claim_C7_counterexample :
    fileRows envDup "p" fileDup1 ≠ [] ∧
    fileRows envDup "p" fileDup2 ≠ [] ∧
    (process_pdf_files envDup "p" true [fileDup1, fileDup2]).2
      = some [("a_highlighted.pdf", [2, 0])] := by
  refine ⟨by decide, by decide, by decide⟩

/-- Claim C7 (amended): the archive is `None` when highlighting is not
requested or when no document matched; otherwise it is present and
contains exactly one entry per distinct derived name
`{document_name}_highlighted.pdf` among the documents with at least one
match (a later matching document with the same derived name overwrites
the earlier one's entry). -/
theorem claim_C7_archive_amended (env : Env) (pattern : String) (flag : Bool)
    (files : List UploadedFile) :
    ((process_pdf_files env pattern false files).2 = none) ∧
    ((∀ f ∈ files, fileRows env pattern f = []) →
      (process_pdf_files env pattern flag files).2 = none) ∧
    (flag = true → ∀ f ∈ files, fileRows env pattern f ≠ [] →
      (process_pdf_files env pattern flag files).2 ≠ none) ∧
    (∀ entries, (process_pdf_files env pattern true files).2 = some entries →
      entries ≠ [] ∧ (entries.map Prod.fst).Nodup ∧
      (∀ k, k ∈ entries.map Prod.fst ↔
        ∃ f ∈ files, fileRows env pattern f ≠ []
          ∧ (splitext f.name).1 ++ "_highlighted.pdf" = k)) := by
  refine ⟨?_, ?_, ?_, ?_⟩
  · rw [process_zip_eq, if_pos]
    exact foldl_dictStep_of_none env pattern false files []
      (fun f _ => processFile_snd_false env pattern f)
  · intro h
    rw [process_zip_eq, if_pos]
    exact foldl_dictStep_of_none env pattern flag files []
      (fun f hf => processFile_snd_of_nil env pattern flag f (h f hf))
  · rintro rfl f hf hrows
    rw [process_zip_eq]
    have hk : ((splitext f.name).1 ++ "_highlighted.pdf")
        ∈ (files.foldl (dictStep env pattern true) []).map Prod.fst := by
      rw [foldl_dictStep_keys_mem]
      exact Or.inr ⟨f, hf, _, processFile_snd_some env pattern f hrows⟩
    have hne : files.foldl (dictStep env pattern true) [] ≠ [] := by
      intro hnil
      rw [hnil] at hk
      simp at hk
    rw [if_neg hne]
    simp
  · intro entries hsome
    rw [process_zip_eq] at hsome
    by_cases hnil : files.foldl (dictStep env pattern true) [] = []
    · rw [if_pos hnil] at hsome; cases hsome
    · rw [if_neg hnil] at hsome
      injection hsome with hsome
      subst hsome
      refine ⟨hnil, foldl_dictStep_nodup env pattern true files [] (by simp), ?_⟩
      intro k
      rw [foldl_dictStep_keys_mem]
      simp only [List.map_nil, List.not_mem_nil, false_or]
      constructor
      · rintro ⟨f, hf, v, hv⟩
        by_cases hc : (true : Bool) = true ∧ fileRows env pattern f ≠ []
        · refine ⟨f, hf, hc.2, ?_⟩
          rw [processFile_snd_some env pattern f hc.2] at hv
          simp only [Option.some.injEq, Prod.mk.injEq] at hv
          exact hv.1
        · have hrows0 : fileRows env pattern f = [] := by
            by_contra hne
            exact hc ⟨rfl, hne⟩
          rw [processFile_snd_of_nil env pattern true f hrows0] at hv
          cases hv
      · rintro ⟨f, hf, hrows, hkey⟩
        exact ⟨f, hf, _, hkey ▸ processFile_snd_some env pattern f hrows⟩

/-- Witness for Claim C7 (amended): one matching upload makes the
archive present. -/
theorem claim_C7_archive_amended_witness :
    fileRows envDup "p" fileDup1 ≠ [] ∧
    (process_pdf_files envDup "p" true [fileDup1]).2 ≠ none := by
  have h : fileRows envDup "p" fileDup1 ≠ [] := by decide
  exact ⟨h, (claim_C7_archive_amended envDup "p" true [fileDup1]).2.2.1 rfl
    fileDup1 (List.mem_cons_self fileDup1 []) h⟩

/-- Claim C8 is violated by the code: a document whose page-text
extraction (or whose highlighting body) raises after `pymupdf.open`
succeeded takes the `except` early-return path, which does not call
`close()`; the handle trace records an open with no matching close. -/
theorem claim_C8_handle_leak :
    (extract_text_from_pdf envLeak [0]).1 = [Ev.openEv] ∧
    Ev.closeEv ∉ (extract_text_from_pdf envLeak [0]).1 ∧
    (highlight_matches_in_pdf envLeak [0] "p" "a.pdf").1 = [Ev.openEv] ∧
    Ev.closeEv ∉ (highlight_matches_in_pdf envLeak [0] "p" "a.pdf").1 := by
  refine ⟨rfl, by decide, rfl, by decide⟩

/-- Claim C9: the batch result table is a pure function of the
documents, the pattern and the highlight flag (plus the deterministic
external library behaviour `Env`): equal inputs give byte-identical
table text. -/
theorem claim_C9_determinism (env : Env) (p1 p2 : String) (fl1 fl2 : Bool)
    (fs1 fs2 : List UploadedFile) (hf : fs1 = fs2) (hp : p1 = p2) (hb : fl1 = fl2) :
    (process_pdf_files env p1 fl1 fs1).1 = (process_pdf_files env p2 fl2 fs2).1 := by
  subst hf hp hb
  rfl

/-- Witness for Claim C9: re-running the same batch reproduces the
table. -/
theorem claim_C9_determinism_witness :
    (process_pdf_files envDup "p" true [fileDup1]).1
      = (process_pdf_files envDup "p" true [fileDup1]).1 :=
  claim_C9_determinism envDup "p" "p" true true [fileDup1] [fileDup1] rfl rfl rfl

/-- Claim C10: a present (non-`None`) archive implies a non-empty
result table: an archive entry exists only for a document with at least
one appended row, so at least one row exists and the header-prefixed
table is non-empty. -/
theorem claim_C10_archive_implies_rows (env : Env) (pattern : String) (flag : Bool)
    (files : List UploadedFile)
    (h : (process_pdf_files env pattern flag files).2 ≠ none) :
    (process_pdf_files env pattern flag files).1 ≠ "" := by
  rw [process_zip_eq] at h
  by_cases hd : files.foldl (dictStep env pattern flag) [] = []
  · rw [if_pos hd] at h
    exact absurd rfl h
  · have hex : ∃ f ∈ files, (processFile env pattern flag f).2 ≠ none := by
      by_contra hno
      push_neg at hno
      exact hd (foldl_dictStep_of_none env pattern flag files [] hno)
    obtain ⟨f, hf, henf⟩ := hex
    have hrows : fileRows env pattern f ≠ [] :=
      fun hr => henf (processFile_snd_of_nil env pattern flag f hr)
    have hall : allRecords env pattern flag files ≠ [] := by
      rw [allRecords_eq]
      intro hnil
      apply hrows
      have hmem : fileRows env pattern f ∈ files.map (fileRows env pattern) :=
        List.mem_map_of_mem _ hf
      exact List.flatten_eq_nil_iff.mp hnil _ hmem
    rw [process_table_eq, if_neg hall]
    intro hcontra
    have hlen := congrArg String.length hcontra
    rw [String.length_append, String.length_append] at hlen
    rw [show ("Index\tDocument\tPage\tMatch").length = 25 from rfl] at hlen
    rw [show ("\n" : String).length = 1 from rfl] at hlen
    rw [show ("" : String).length = 0 from rfl] at hlen
    omega

/-- Witness for Claim C10: a batch with a present archive has a
non-empty table. -/
theorem claim_C10_archive_implies_rows_witness :
    (process_pdf_files envDup "p" true [fileDup1]).2 ≠ none ∧
    (process_pdf_files envDup "p" true [fileDup1]).1 ≠ "" :=
  ⟨by decide, claim_C10_archive_implies_rows envDup "p" true [fileDup1] (by decide)⟩

end PdfParser
